import Mathlib

/-!
Shallow embedding of `scripts/parse_musicxml.py`: a MusicXML-to-timeline
converter.  The script walks the document's measures, tracks divisions /
key signature / time signature, emits note, rest and lyric events with
snapped absolute beats, records repeat, volta and time-signature-change
markers, consolidates tied notes and finally merges and sorts the event
list.  Beats and durations are modelled as rationals (the script uses
Python floats; all claim-relevant arithmetic is exact decimal/ratio
arithmetic).  Parsed integer fields (divisions, duration, beats,
beat-type, octave) are modelled as naturals, matching the values valid
MusicXML documents carry; `fifths` and `alter` are integers as in the
script.
-/

namespace RochelMusic

/-- `snap_to_half_beat` from the script:
`return math.floor(beat * 2 + 0.5) / 2`. -/
def snap_to_half_beat (beat : ℚ) : ℚ :=
  (⌊beat * 2 + 1/2⌋ : ℤ) / 2

/-- Models Python's `round(x, 2)`: decimal rounding at hundredths, ties to
even (Python's round-half-even; exact over the rationals). -/
def round2 (q : ℚ) : ℚ :=
  let h : ℚ := q * 100
  (if h - ⌊h⌋ = 1/2 then (if 2 ∣ ⌊h⌋ then (⌊h⌋ : ℚ) else (⌊h⌋ : ℚ) + 1)
   else (round h : ℤ)) / 100

/-- `sharps_order` from the script. -/
def sharps_order : List String := ["F", "C", "G", "D", "A", "E", "B"]

/-- `flats_order` from the script. -/
def flats_order : List String := ["B", "E", "A", "D", "G", "C", "F"]

/-- `get_key_accidentals(fifths_val)` from the script: the sets of letters
sharpened / flattened by the key signature (Python slices clamp, as
`List.take` does). -/
def get_key_accidentals (fifths_val : ℤ) : List String × List String :=
  if fifths_val > 0 then (sharps_order.take fifths_val.toNat, [])
  else if fifths_val < 0 then ([], flats_order.take fifths_val.natAbs)
  else ([], [])

/-! ## The parsed document

The script navigates an ElementTree; we model the parts of the tree it
reads.  Children the script never looks at are omitted. -/

/-- A `<pitch>` element: `step` and `octave` texts are read unconditionally,
`<alter>` is optional (its text is parsed with `int(float(...))`). -/
structure PitchElem where
  step : String
  alter : Option ℤ
  octave : ℕ
  deriving Repr, DecidableEq

/-- A `<lyric>` element: optional `<text>` child (whose text may be absent)
and optional `<syllabic>` child. -/
structure LyricElem where
  text : Option String
  syllabic : Option String
  deriving Repr, DecidableEq

/-- A `<note>` element: `rest`/`chord` presence, the `type` attributes of its
`<tie>` children, optional `<pitch>` and `<duration>` children, and its
`<lyric>` children. -/
structure NoteElem where
  isRest : Bool
  chord : Bool
  ties : List (Option String)
  pitch : Option PitchElem
  duration : Option ℕ
  lyrics : List LyricElem
  deriving Repr, DecidableEq

/-- A `<time>` element with optional `<beats>` and `<beat-type>` children. -/
structure TimeElem where
  beats : Option ℕ
  beatType : Option ℕ
  deriving Repr, DecidableEq

/-- An `<attributes>` element: optional `<divisions>`, optional `<key>`
(itself with optional `<fifths>`), optional `<time>`. -/
structure AttrElem where
  divisions : Option ℕ
  key : Option (Option ℤ)
  time : Option TimeElem
  deriving Repr, DecidableEq

/-- An `<ending>` element: its `type` and `number` attributes
(`get('number', '1')` applies the default at the read site). -/
structure EndingElem where
  etype : Option String
  number : Option String
  deriving Repr, DecidableEq

/-- A `<barline>` element: `location` attribute, optional `<repeat>` child
(with its optional `direction` attribute) and optional `<ending>` child. -/
structure BarlineElem where
  location : Option String
  rep : Option (Option String)
  ending : Option EndingElem
  deriving Repr, DecidableEq

/-- A `<measure>` element.  The script reads its `number` attribute, then
iterates `findall('attributes')`, `findall('barline')` and finally the
children with tag `note` — three separate document-order passes, which we
keep as three lists. -/
structure Measure where
  number : ℕ
  attrs : List AttrElem
  barlines : List BarlineElem
  elems : List NoteElem
  deriving Repr, DecidableEq

/-- The document: its measures in document order (`root.findall('.//measure')`). -/
structure Doc where
  measures : List Measure
  deriving Repr, DecidableEq

/-- First `.//attributes/divisions` text of the document, if any. -/
def firstDivisions (d : Doc) : Option ℕ :=
  ((d.measures.map (fun m => m.attrs.filterMap (·.divisions))).flatten).head?

/-- First `.//key/fifths` text of the document, if any. -/
def firstFifths (d : Doc) : Option ℤ :=
  ((d.measures.map (fun m => m.attrs.filterMap (fun a => a.key.bind id))).flatten).head?

/-- First `.//time` element of the document, if any. -/
def firstTime (d : Doc) : Option TimeElem :=
  ((d.measures.map (fun m => m.attrs.filterMap (·.time))).flatten).head?

/-- The initial time signature: defaults 4/4, each component overridden
independently from the first `<time>` element (lines 46-55 of the script). -/
def initialTime (d : Doc) : ℕ × ℕ :=
  match firstTime d with
  | none => (4, 4)
  | some t => (t.beats.getD 4, t.beatType.getD 4)

/-! ## Emitted events -/

/-- A raw note event as appended to `notes` (lines 255-263).  The script's
dict carries id, pitch, duration, absoluteBeat, measure, tie_start and
tie_stop; the `chord` field additionally records the element's local
`is_chord` flag, which the script computes but does not store, so that
chord behaviour can be stated. -/
structure NoteEv where
  id : ℕ
  pitch : String
  duration : ℚ
  absoluteBeat : ℚ
  measure : ℕ
  tie_start : Bool
  tie_stop : Bool
  chord : Bool
  deriving Repr, DecidableEq

/-- A rest event as appended to `rests` (lines 184-190). -/
structure RestEv where
  id : String
  pitch : String
  duration : ℚ
  absoluteBeat : ℚ
  measure : ℕ
  deriving Repr, DecidableEq

/-- A lyric event (lines 270-274). -/
structure LyricEv where
  text : String
  absoluteBeat : ℚ
  syllabic : Option String
  deriving Repr, DecidableEq

/-- A repeat marker (lines 157-162). -/
structure RepeatEv where
  measure : ℕ
  direction : Option String
  beat : ℚ
  location : String
  deriving Repr, DecidableEq

/-- A volta record (lines 169-174). -/
structure VoltaEv where
  measure : ℕ
  vtype : Option String
  number : String
  beat : ℚ
  deriving Repr, DecidableEq

/-- A time-signature-change record (lines 144-147). -/
structure TSChange where
  measureNumber : ℕ
  numerator : ℕ
  denominator : ℕ
  deriving Repr, DecidableEq

/-- The script appends note events to `notes` and rest events to `rests` as
it scans; `Ev` records both streams in their single document emission
order, of which the two lists are the projections (`notesOf`, `restsOf`). -/
inductive Ev where
  | note (n : NoteEv)
  | rest (r : RestEv)
  deriving Repr, DecidableEq

/-- The `notes` list: note events in emission order. -/
def notesOf (evs : List Ev) : List NoteEv :=
  evs.filterMap fun e => match e with | .note n => some n | .rest _ => none

/-- The `rests` list: rest events in emission order. -/
def restsOf (evs : List Ev) : List RestEv :=
  evs.filterMap fun e => match e with | .note _ => none | .rest r => some r

/-- The running state of `parse_musicxml`'s measure loop. -/
structure PState where
  divisions : ℕ
  fifths : ℤ
  keySharps : List String
  keyFlats : List String
  beats : ℕ
  beatType : ℕ
  events : List Ev
  lyrics : List LyricEv
  currentBeat : ℚ
  noteId : ℕ
  restId : ℕ
  repeats : List RepeatEv
  voltas : List VoltaEv
  timeSigChanges : List TSChange
  measureBeats : List (ℕ × ℚ)
  measureAccidentals : List (String × ℤ)
  deriving Repr, DecidableEq

/-- Lookup in the measure-override table (`measure_accidentals[step]`;
insertion prepends, so the first hit is the latest write). -/
def alookup : List (String × ℤ) → String → Option ℤ
  | [], _ => none
  | (k, v) :: rest, s => if k = s then some v else alookup rest s

/-- Pitch-spelling resolution, lines 211-247 of the script: given the step
letter, the optional explicit alteration, the measure-override table and
the current key-signature letter sets, produce the pitch string (without
the octave) and the updated override table. -/
def resolve_pitch (step : String) (alter : Option ℤ) (acc : List (String × ℤ))
    (keySharps keyFlats : List String) : String × List (String × ℤ) :=
  match alter with
  | some alt =>
    let suffix := if alt = 2 then "##" else if alt = 1 then "#"
      else if alt = -1 then "b" else if alt = -2 then "bb" else ""
    (step ++ suffix, (step, alt) :: acc)
  | none =>
    match alookup acc step with
    | some alt =>
      let suffix := if alt = 1 then "#" else if alt = -1 then "b"
        else if alt = 2 then "##" else if alt = -2 then "bb" else ""
      (step ++ suffix, acc)
    | none =>
      if step ∈ keySharps then (step ++ "#", acc)
      else if step ∈ keyFlats then (step ++ "b", acc)
      else (step, acc)

/-- Processing of one `note`-tagged child, lines 178-279 of the script. -/
def processNoteElem (s : PState) (measure_num : ℕ) (e : NoteElem) : PState :=
  if e.isRest then
    match e.duration with
    | some du =>
      let dur_beats : ℚ := (du : ℚ) / (s.divisions : ℚ)
      { s with
        events := s.events ++ [Ev.rest {
          id := "r" ++ toString s.restId,
          pitch := "REST",
          duration := round2 dur_beats,
          absoluteBeat := snap_to_half_beat s.currentBeat,
          measure := measure_num }],
        restId := s.restId + 1,
        currentBeat := s.currentBeat + dur_beats }
    | none => s
  else
    let is_chord := e.chord
    let is_tie_start := e.ties.any (· = some "start")
    let is_tie_stop := e.ties.any (· = some "stop")
    match e.pitch, e.duration with
    | some p, some du =>
      let pr := resolve_pitch p.step p.alter s.measureAccidentals s.keySharps s.keyFlats
      let pitch_str := pr.1 ++ toString p.octave
      let dur_beats : ℚ := (du : ℚ) / (s.divisions : ℚ)
      let note_beat :=
        if is_chord then
          match (notesOf s.events).getLast? with
          | some n => n.absoluteBeat
          | none => s.currentBeat
        else s.currentBeat
      let newLyrics := e.lyrics.filterMap fun ly =>
        match ly.text with
        | some t =>
          if t ≠ "" then
            some { text := t, absoluteBeat := snap_to_half_beat note_beat,
                   syllabic := ly.syllabic }
          else none
        | none => none
      { s with
        events := s.events ++ [Ev.note {
          id := s.noteId,
          pitch := pitch_str,
          duration := dur_beats,
          absoluteBeat := snap_to_half_beat note_beat,
          measure := measure_num,
          tie_start := is_tie_start,
          tie_stop := is_tie_stop,
          chord := is_chord }],
        lyrics := s.lyrics ++ newLyrics,
        measureAccidentals := pr.2,
        noteId := s.noteId + 1,
        currentBeat := if is_chord then s.currentBeat else s.currentBeat + dur_beats }
    | _, _ => s

/-- Processing of one `attributes` element, lines 116-148 of the script. -/
def processAttr (s : PState) (measure_num : ℕ) (a : AttrElem) : PState :=
  let s1 := match a.divisions with
    | some dv => { s with divisions := dv }
    | none => s
  let s2 := match a.key with
    | some (some new_fifths) =>
      if new_fifths ≠ s1.fifths then
        let ks := get_key_accidentals new_fifths
        { s1 with fifths := new_fifths, keySharps := ks.1, keyFlats := ks.2 }
      else s1
    | _ => s1
  match a.time with
  | some t =>
    match t.beats, t.beatType with
    | some new_b, some new_bt =>
      if new_b ≠ s2.beats ∨ new_bt ≠ s2.beatType then
        { s2 with
          beats := new_b, beatType := new_bt,
          timeSigChanges := s2.timeSigChanges ++
            [{ measureNumber := measure_num, numerator := new_b, denominator := new_bt }] }
      else s2
    | _, _ => s2
  | none => s2

/-- Processing of one `barline` element, lines 151-175 of the script. -/
def processBarline (s : PState) (measure_num : ℕ) (b : BarlineElem) : PState :=
  let location := b.location.getD "right"
  let s1 := match b.rep with
    | some dir =>
      { s with repeats := s.repeats ++
          [{ measure := measure_num, direction := dir,
             beat := s.currentBeat, location := location }] }
    | none => s
  match b.ending with
  | some en =>
    { s1 with voltas := s1.voltas ++
        [{ measure := measure_num, vtype := en.etype,
           number := en.number.getD "1", beat := s1.currentBeat }] }
  | none => s1

/-- One iteration of the measure loop (lines 110-279): record the measure
start beat, clear the accidental table, then process attributes, barlines
and note children in order. -/
def processMeasure (s : PState) (m : Measure) : PState :=
  let s0 := { s with
    measureBeats := s.measureBeats ++ [(m.number, s.currentBeat)],
    measureAccidentals := [] }
  let s1 := m.attrs.foldl (fun t a => processAttr t m.number a) s0
  let s2 := m.barlines.foldl (fun t b => processBarline t m.number b) s1
  m.elems.foldl (fun t e => processNoteElem t m.number e) s2

/-- The state before the measure loop: initial divisions / key / time read
from the first matching elements of the whole document (lines 33-55, 89,
96-108). -/
def initState (d : Doc) : PState :=
  let divisions := (firstDivisions d).getD 2
  let fifths := (firstFifths d).getD 0
  let bt := initialTime d
  let ks := get_key_accidentals fifths
  { divisions := divisions, fifths := fifths,
    keySharps := ks.1, keyFlats := ks.2,
    beats := bt.1, beatType := bt.2,
    events := [], lyrics := [], currentBeat := 0,
    noteId := 1, restId := 1,
    repeats := [], voltas := [], timeSigChanges := [],
    measureBeats := [], measureAccidentals := [] }

/-- The measure loop of `parse_musicxml`: the state after all measures. -/
def runParse (d : Doc) : PState :=
  d.measures.foldl processMeasure (initState d)

/-! ## Tie consolidation (lines 281-310) -/

/-- A consolidated note, as built into `final_notes` (lines 289-295). -/
structure FinalNote where
  id : ℕ
  pitch : String
  duration : ℚ
  absoluteBeat : ℚ
  measure : ℕ
  deriving Repr, DecidableEq

/-- The inner `while j < len(notes)` loop (lines 299-307): scan forward from
index `j` for notes of pitch `p` flagged tie-stop, accumulating their
durations into `d` and their indices into `skips`; a consumed note that is
not also a tie-start ends the scan. -/
def tieScan (ns : List NoteEv) (p : String) (j : ℕ) (d : ℚ)
    (skips : List ℕ) : ℚ × List ℕ :=
  if h : j < ns.length then
    let nj := ns.get ⟨j, h⟩
    if nj.pitch = p ∧ nj.tie_stop then
      if nj.tie_start then tieScan ns p (j + 1) (d + nj.duration) (j :: skips)
      else (d + nj.duration, j :: skips)
    else tieScan ns p (j + 1) d skips
  else (d, skips)
termination_by ns.length - j

/-- The outer `for i, note in enumerate(notes)` loop (lines 285-310). -/
def consolidateGo (ns : List NoteEv) (i : ℕ) (skips : List ℕ)
    (acc : List FinalNote) : List FinalNote :=
  if h : i < ns.length then
    if i ∈ skips then consolidateGo ns (i + 1) skips acc
    else
      let n := ns.get ⟨i, h⟩
      let r := if n.tie_start then tieScan ns n.pitch (i + 1) n.duration skips
               else (n.duration, skips)
      consolidateGo ns (i + 1) r.2 (acc ++
        [{ id := n.id, pitch := n.pitch, duration := round2 r.1,
           absoluteBeat := n.absoluteBeat, measure := n.measure }])
  else acc
termination_by ns.length - i

/-- `final_notes`: the tie-consolidated note list. -/
def consolidate (ns : List NoteEv) : List FinalNote :=
  consolidateGo ns 0 [] []

/-! ## Final merge and sort (lines 312-314) -/

/-- An entry of `all_items`: a consolidated note or a rest (their ids are an
integer and a string respectively). -/
structure Item where
  id : ℕ ⊕ String
  pitch : String
  duration : ℚ
  absoluteBeat : ℚ
  measure : ℕ
  deriving Repr, DecidableEq

def itemOfNote (n : FinalNote) : Item :=
  { id := Sum.inl n.id, pitch := n.pitch, duration := n.duration,
    absoluteBeat := n.absoluteBeat, measure := n.measure }

def itemOfRest (r : RestEv) : Item :=
  { id := Sum.inr r.id, pitch := r.pitch, duration := r.duration,
    absoluteBeat := r.absoluteBeat, measure := r.measure }

/-- The sort key of line 314: `(x['absoluteBeat'], 0 if x['pitch'] != 'REST' else 1)`. -/
def sortKey (x : Item) : ℚ × ℕ :=
  (x.absoluteBeat, if x.pitch ≠ "REST" then 0 else 1)

/-- Python compares key tuples lexicographically. -/
def keyLE (x y : Item) : Bool :=
  decide ((sortKey x).1 < (sortKey y).1 ∨
    ((sortKey x).1 = (sortKey y).1 ∧ (sortKey x).2 ≤ (sortKey y).2))

/-- `all_items = final_notes + rests` (line 313). -/
def all_items (d : Doc) : List Item :=
  (consolidate (notesOf (runParse d).events)).map itemOfNote ++
    (restsOf (runParse d).events).map itemOfRest

/-- `all_items.sort(key=...)` (line 314): Python's list sort is a stable
sort by key, modelled by `List.mergeSort`. -/
def sorted_items (d : Doc) : List Item :=
  (all_items d).mergeSort keyLE


/-! ## Volta brackets (`print_voltas`, lines 374-402) -/

/-- An emitted volta bracket (0-based measures, as printed). -/
structure VoltaBracket where
  number : String
  startMeasure : ℕ
  endMeasure : ℕ
  deriving Repr, DecidableEq

/-- The distinct ending numbers in first-occurrence order (the keys of
`volta_groups`, a Python dict filled in document order). -/
def voltaNumbers (vs : List VoltaEv) : List String :=
  vs.foldl (fun acc v => if v.number ∈ acc then acc else acc ++ [v.number]) []

/-- The brackets produced for one ending-number group (lines 391-400):
for each `start`-typed ending, the first `stop`/`discontinue`-typed ending
of the group at a measure ≥ the start's measure closes it; with none the
start's own measure closes it. -/
def bracketsFor (vs : List VoltaEv) (num : String) : List VoltaBracket :=
  let group := vs.filter (fun v => v.number = num)
  let starts := group.filter (fun v => v.vtype = some "start")
  let stops := group.filter
    (fun v => v.vtype = some "stop" ∨ v.vtype = some "discontinue")
  starts.map (fun st =>
    let stop := stops.find? (fun v => st.measure ≤ v.measure)
    let end_measure := match stop with
      | some v => v.measure
      | none => st.measure
    { number := num, startMeasure := st.measure - 1,
      endMeasure := end_measure - 1 })

/-- `print_voltas` as a pure function: the bracket records it prints, in
print order (`sorted(volta_groups.items())` sorts groups by number). -/
def print_voltas (vs : List VoltaEv) : List VoltaBracket :=
  (((voltaNumbers vs).mergeSort (fun a b => a ≤ b)).map (bracketsFor vs)).flatten

/-! ## Specification-side definitions

These re-state parts of the algorithm in the claims' terms, to be compared
with the state-threading embedding above. -/

/-- All (measure number, attributes element) pairs of a document, in
document order. -/
def attrPairs (d : Doc) : List (ℕ × AttrElem) :=
  (d.measures.map (fun m => m.attrs.map (fun a => (m.number, a)))).flatten

/-- One step of the time-signature tracking described by the spec: an
attributes element carrying a complete `(beats, beat-type)` pair that
differs from the tracked signature is recorded; everything else leaves the
tracking unchanged. -/
def tsSpecStep (st : (ℕ × ℕ) × List TSChange) (p : ℕ × AttrElem) :
    (ℕ × ℕ) × List TSChange :=
  match (p.2).time with
  | some t =>
    match t.beats, t.beatType with
    | some nb, some nbt =>
      if nb ≠ st.1.1 ∨ nbt ≠ st.1.2 then
        ((nb, nbt), st.2 ++ [{ measureNumber := p.1, numerator := nb, denominator := nbt }])
      else st
    | _, _ => st
  | none => st

/-- The time-signature-change records as described by the spec: a fold of
`tsSpecStep` over all attributes elements, starting from the document's
initial signature. -/
def tsChangesSpec (d : Doc) : List TSChange :=
  ((attrPairs d).foldl tsSpecStep (initialTime d, [])).2

/-- The indices consumed by the tie-chain scan that starts at index `j`
looking for pitch `p` (the claims' description of the inner loop of the
Tie Consolidator). -/
def chainIdx (ns : List NoteEv) (p : String) (j : ℕ) : List ℕ :=
  if h : j < ns.length then
    let nj := ns.get ⟨j, h⟩
    if nj.pitch = p ∧ nj.tie_stop then
      if nj.tie_start then j :: chainIdx ns p (j + 1) else [j]
    else chainIdx ns p (j + 1)
  else []
termination_by ns.length - j

/-- The total duration consumed by the tie-chain scan starting at `j`. -/
def chainDur (ns : List NoteEv) (p : String) (j : ℕ) : ℚ :=
  ((chainIdx ns p j).map (fun k => ((ns.get? k).map NoteEv.duration).getD 0)).sum

/-- The set (as a list) of indices already consumed when the consolidation
loop reaches index `i`. -/
def skipsAt (ns : List NoteEv) : ℕ → List ℕ
  | 0 => []
  | i + 1 =>
    let sk := skipsAt ns i
    if h : i < ns.length then
      if i ∈ sk then sk
      else
        let n := ns.get ⟨i, h⟩
        if n.tie_start then (tieScan ns n.pitch (i + 1) n.duration sk).2 else sk
    else sk

/-- What the consolidation loop produces for index `i`: nothing when `i` is
consumed, and otherwise a note with the origin's id, pitch, beat and
measure whose duration adds the scanned chain's durations (rounded to two
decimals). -/
def consolidatedAt (ns : List NoteEv) (i : ℕ) : Option FinalNote :=
  match ns.get? i with
  | none => none
  | some n =>
    if i ∈ skipsAt ns i then none
    else some
      { id := n.id, pitch := n.pitch,
        duration := round2 (n.duration +
          (if n.tie_start then chainDur ns n.pitch (i + 1) else 0)),
        absoluteBeat := n.absoluteBeat, measure := n.measure }


/-! ## Properties of the beat snapper -/

/-- A beat already on the half-beat grid. -/
def SnapFixed (b : ℚ) : Prop := snap_to_half_beat b = b

lemma snap_half_int (k : ℤ) : snap_to_half_beat ((k : ℚ) / 2) = (k : ℚ) / 2 := by
  unfold snap_to_half_beat
  have h1 : (k : ℚ) / 2 * 2 + 1 / 2 = 1 / 2 + (k : ℚ) := by ring
  rw [h1, Int.floor_add_int]
  have h2 : ⌊(1 : ℚ) / 2⌋ = 0 := by
    rw [Int.floor_eq_zero_iff]
    constructor <;> norm_num
  rw [h2]
  norm_num

lemma snap_idem (b : ℚ) :
    snap_to_half_beat (snap_to_half_beat b) = snap_to_half_beat b :=
  snap_half_int _

lemma snap_fixed_of_half (b : ℚ) (k : ℤ) (h : b = (k : ℚ) / 2) : SnapFixed b := by
  subst h; exact snap_half_int k

lemma snap_snapfixed (b : ℚ) : SnapFixed (snap_to_half_beat b) := snap_idem b

lemma snapfixed_half (b : ℚ) (h : SnapFixed b) : ∃ k : ℤ, b = (k : ℚ) / 2 :=
  ⟨⌊b * 2 + 1/2⌋, h.symm⟩

lemma snap_mono {b c : ℚ} (h : b ≤ c) :
    snap_to_half_beat b ≤ snap_to_half_beat c := by
  unfold snap_to_half_beat
  have hf : ⌊b * 2 + 1 / 2⌋ ≤ ⌊c * 2 + 1 / 2⌋ := by
    apply Int.floor_le_floor; linarith
  have : ((⌊b * 2 + 1 / 2⌋ : ℤ) : ℚ) ≤ ((⌊c * 2 + 1 / 2⌋ : ℤ) : ℚ) := by
    exact_mod_cast hf
  linarith

lemma snap_dist (b : ℚ) : |snap_to_half_beat b - b| ≤ 1 / 4 := by
  unfold snap_to_half_beat
  have h1 : ((⌊b * 2 + 1 / 2⌋ : ℤ) : ℚ) ≤ b * 2 + 1 / 2 := Int.floor_le _
  have h2 : b * 2 + 1 / 2 < ((⌊b * 2 + 1 / 2⌋ : ℤ) : ℚ) + 1 := Int.lt_floor_add_one _
  rw [abs_le]
  constructor <;> [linarith; linarith]

lemma snap_tie_up (b : ℚ) (k : ℤ) (h : b = (k : ℚ) / 2 + 1 / 4) :
    snap_to_half_beat b = ((k : ℚ) + 1) / 2 := by
  unfold snap_to_half_beat
  have h1 : b * 2 + 1 / 2 = ((k + 1 : ℤ) : ℚ) := by subst h; push_cast; ring
  rw [h1, Int.floor_intCast]
  push_cast
  ring

/-- **C6.** `snap(b) = floor(b * 2 + 0.5) / 2`: the snapped beat is a
multiple of 0.5 at distance at most 0.25 from `b`, exact half-way points
(`b = k/2 + 1/4`) round upward to `(k+1)/2`, and `snap` is idempotent. -/
theorem C6_snap_contract (b : ℚ) :
    snap_to_half_beat b = ((⌊b * 2 + 1 / 2⌋ : ℤ) : ℚ) / 2 ∧
    (∃ k : ℤ, snap_to_half_beat b = (k : ℚ) / 2) ∧
    |snap_to_half_beat b - b| ≤ 1 / 4 ∧
    (∀ k : ℤ, b = (k : ℚ) / 2 + 1 / 4 →
      snap_to_half_beat b = ((k : ℚ) + 1) / 2) ∧
    snap_to_half_beat (snap_to_half_beat b) = snap_to_half_beat b :=
  ⟨rfl, ⟨⌊b * 2 + 1/2⌋, rfl⟩, snap_dist b,
    fun k h => snap_tie_up b k h, snap_idem b⟩

/-! ## Accidental resolution (C2) -/

/-- **C2.** Pitch-spelling resolution: an explicit alteration is recorded
in the measure-override table (shadowing older entries for the letter); an
unmarked note whose letter has an override reuses exactly the spelling the
explicit alteration produced, whatever the key signature is; an unmarked
note without an override is sharpened iff its letter is among the first
`fifths` letters of F,C,G,D,A,E,B (fifths > 0) and flattened iff it is
among the first `|fifths|` letters of B,E,A,D,G,C,F (fifths < 0); and each
measure's processing starts from an empty override table, so overrides do
not survive a measure boundary. -/
theorem C2_accidental_resolution (step : String) (alt : ℤ)
    (acc : List (String × ℤ)) (f : ℤ) (ks kf ks' kf' : List String)
    (s : PState) (m : Measure) :
    ((resolve_pitch step (some alt) acc ks kf).2 = (step, alt) :: acc ∧
      alookup (resolve_pitch step (some alt) acc ks kf).2 step = some alt) ∧
    (∀ a, alookup acc step = some a →
      (resolve_pitch step none acc ks kf).1 =
        (resolve_pitch step (some a) acc ks' kf').1 ∧
      (resolve_pitch step none acc ks kf).2 = acc) ∧
    (alookup acc step = none →
      (resolve_pitch step none acc
          (get_key_accidentals f).1 (get_key_accidentals f).2).1 =
        step ++ (if 0 < f ∧ step ∈ sharps_order.take f.toNat then "#"
          else if f < 0 ∧ step ∈ flats_order.take f.natAbs then "b" else "")) ∧
    processMeasure s m = processMeasure { s with measureAccidentals := [] } m := by
  refine ⟨⟨by simp [resolve_pitch], by simp [resolve_pitch, alookup]⟩, ?_, ?_, rfl⟩
  · intro a ha
    simp only [resolve_pitch, ha]
    refine ⟨?_, trivial⟩
    congr 1
    split_ifs <;> first | rfl | omega
  · intro ha
    simp only [resolve_pitch, ha]
    rcases lt_trichotomy f 0 with hf | hf | hf
    · have h1 : get_key_accidentals f = ([], flats_order.take f.natAbs) := by
        unfold get_key_accidentals
        rw [if_neg (by omega), if_pos hf]
      rw [h1]
      simp only [List.not_mem_nil, if_false]
      have h2 : ¬ (0 < f ∧ step ∈ sharps_order.take f.toNat) := by
        rintro ⟨h, -⟩; omega
      rw [if_neg h2]
      by_cases hm : step ∈ flats_order.take f.natAbs
      · rw [if_pos hm, if_pos ⟨hf, hm⟩]
      · rw [if_neg hm, if_neg (by rintro ⟨-, h⟩; exact hm h)]
        simp
    · subst hf
      have h1 : get_key_accidentals 0 = ([], []) := rfl
      rw [h1]
      simp
    · have h1 : get_key_accidentals f = (sharps_order.take f.toNat, []) := by
        unfold get_key_accidentals
        rw [if_pos hf]
      rw [h1]
      by_cases hm : step ∈ sharps_order.take f.toNat
      · rw [if_pos hm, if_pos ⟨hf, hm⟩]
      · rw [if_neg hm]
        simp only [List.not_mem_nil, if_false]
        rw [if_neg (by rintro ⟨-, h⟩; exact hm h)]
        rw [if_neg (by rintro ⟨h, -⟩; omega)]
        simp

/-! ## Silently skipped deficient notes (C10) -/

/-- A non-rest note element without a pitch or without a duration leaves
the whole running state unchanged. -/
lemma processNoteElem_skip (s : PState) (mn : ℕ) (e : NoteElem)
    (h1 : e.isRest = false) (h2 : e.pitch = none ∨ e.duration = none) :
    processNoteElem s mn e = s := by
  rcases h2 with h | h
  · cases hd : e.duration <;> simp [processNoteElem, h1, h, hd]
  · cases hp : e.pitch <;> simp [processNoteElem, h1, h, hp]

lemma foldl_elems_skip (s : PState) (mn : ℕ) (pre post : List NoteElem)
    (bad : NoteElem) (h1 : bad.isRest = false)
    (h2 : bad.pitch = none ∨ bad.duration = none) :
    (pre ++ bad :: post).foldl (fun t e => processNoteElem t mn e) s =
      (pre ++ post).foldl (fun t e => processNoteElem t mn e) s := by
  rw [List.foldl_append, List.foldl_append, List.foldl_cons,
    processNoteElem_skip _ _ _ h1 h2]

/-- **C10.** A note element lacking a pitch or a duration child is silently
skipped: the parse of a document containing it equals, state for state
(events, lyrics, counters, beat cursor, markers and all), the parse of the
document with that element removed. -/
theorem C10_deficient_note_skipped (ms1 ms2 : List Measure) (num : ℕ)
    (attrs : List AttrElem) (barlines : List BarlineElem)
    (pre post : List NoteElem) (bad : NoteElem)
    (h1 : bad.isRest = false) (h2 : bad.pitch = none ∨ bad.duration = none) :
    runParse ⟨ms1 ++ { number := num, attrs := attrs, barlines := barlines,
                       elems := pre ++ bad :: post } :: ms2⟩ =
      runParse ⟨ms1 ++ { number := num, attrs := attrs, barlines := barlines,
                         elems := pre ++ post } :: ms2⟩ := by
  have hinit : initState ⟨ms1 ++ { number := num, attrs := attrs,
                                   barlines := barlines,
                                   elems := pre ++ bad :: post } :: ms2⟩ =
      initState ⟨ms1 ++ { number := num, attrs := attrs,
                          barlines := barlines,
                          elems := pre ++ post } :: ms2⟩ := by
    simp [initState, firstDivisions, firstFifths, firstTime, initialTime]
  unfold runParse
  rw [hinit]
  generalize initState _ = s0
  rw [List.foldl_append, List.foldl_append, List.foldl_cons, List.foldl_cons]
  congr 1
  show processMeasure _ _ = processMeasure _ _
  unfold processMeasure
  exact foldl_elems_skip _ _ _ _ _ h1 h2

/-- A pitched note element with no duration child. -/
def noDurElem : NoteElem :=
  { isRest := false, chord := false, ties := [],
    pitch := some { step := "C", alter := none, octave := 4 },
    duration := none, lyrics := [] }

/-- A plain rest element of two duration units. -/
def plainRestElem : NoteElem :=
  { isRest := true, chord := false, ties := [], pitch := none,
    duration := some 2, lyrics := [] }

/-- Witness for C10 at a concrete document: one measure whose first note
element has a pitch but no duration. -/
theorem C10_deficient_note_skipped_witness :
    runParse ⟨[] ++ { number := 1, attrs := [], barlines := [],
                      elems := [] ++ noDurElem :: [plainRestElem] } :: []⟩ =
      runParse ⟨[] ++ { number := 1, attrs := [], barlines := [],
                        elems := [] ++ [plainRestElem] } :: []⟩ :=
  C10_deficient_note_skipped [] [] 1 [] [] [] [plainRestElem] noDurElem
    rfl (Or.inr rfl)


/-! ## Time-signature tracking as a projection (C4) -/

/-- The time-signature components of the state. -/
def projT (s : PState) : (ℕ × ℕ) × List TSChange :=
  ((s.beats, s.beatType), s.timeSigChanges)

lemma projT_processAttr (s : PState) (mn : ℕ) (a : AttrElem) :
    projT (processAttr s mn a) = tsSpecStep (projT s) (mn, a) := by
  rcases a with ⟨dvo, keyo, timeo⟩
  unfold processAttr tsSpecStep projT
  dsimp only
  rcases timeo with _ | ⟨tb, tbt⟩
  · rcases dvo with _ | dv <;> rcases keyo with _ | (_ | nf) <;>
      dsimp only <;> split_ifs <;> rfl
  · rcases tb with _ | nb <;> rcases tbt with _ | nbt <;>
      rcases dvo with _ | dv <;> rcases keyo with _ | (_ | nf) <;>
      dsimp only <;> split_ifs <;> rfl

lemma projT_processBarline (s : PState) (mn : ℕ) (b : BarlineElem) :
    projT (processBarline s mn b) = projT s := by
  unfold processBarline projT
  rcases b.rep with _ | dir <;> rcases b.ending with _ | en <;> rfl

lemma projT_processNoteElem (s : PState) (mn : ℕ) (e : NoteElem) :
    projT (processNoteElem s mn e) = projT s := by
  unfold processNoteElem projT
  rcases hr : e.isRest with _ | _
  · rcases e.pitch with _ | p <;> rcases e.duration with _ | du <;> rfl
  · rcases e.duration with _ | du <;> rfl

lemma projT_foldl_attrs (mn : ℕ) (l : List AttrElem) (s : PState) :
    projT (l.foldl (fun t a => processAttr t mn a) s) =
      l.foldl (fun st a => tsSpecStep st (mn, a)) (projT s) := by
  induction l generalizing s with
  | nil => rfl
  | cons a l ih => rw [List.foldl_cons, List.foldl_cons, ih, projT_processAttr]

lemma projT_foldl_barlines (mn : ℕ) (l : List BarlineElem) (s : PState) :
    projT (l.foldl (fun t b => processBarline t mn b) s) = projT s := by
  induction l generalizing s with
  | nil => rfl
  | cons b l ih => rw [List.foldl_cons, ih, projT_processBarline]

lemma projT_foldl_elems (mn : ℕ) (l : List NoteElem) (s : PState) :
    projT (l.foldl (fun t e => processNoteElem t mn e) s) = projT s := by
  induction l generalizing s with
  | nil => rfl
  | cons e l ih => rw [List.foldl_cons, ih, projT_processNoteElem]

lemma projT_processMeasure (s : PState) (m : Measure) :
    projT (processMeasure s m) =
      (m.attrs.map (fun a => (m.number, a))).foldl tsSpecStep (projT s) := by
  unfold processMeasure
  rw [projT_foldl_elems, projT_foldl_barlines, projT_foldl_attrs,
    List.foldl_map]
  rfl

lemma projT_foldl_measures (ms : List Measure) (s : PState) :
    projT (ms.foldl processMeasure s) =
      ((ms.map (fun m => m.attrs.map (fun a => (m.number, a)))).flatten).foldl
        tsSpecStep (projT s) := by
  induction ms generalizing s with
  | nil => rfl
  | cons m ms ih =>
    rw [List.foldl_cons, ih, List.map_cons, List.flatten_cons,
      List.foldl_append, projT_processMeasure]

/-- A complete time element. -/
def timeAttr (b bt : ℕ) : AttrElem :=
  { divisions := none, key := none,
    time := some { beats := some b, beatType := some bt } }

/-- An empty measure with the given number and attributes. -/
def bareMeasure (n : ℕ) (attrs : List AttrElem) : Measure :=
  { number := n, attrs := attrs, barlines := [], elems := [] }

/-- The example document of C4: 3/4 established at measure 1, changing to
4/4 at measure 8. -/
def exDocC4 : Doc :=
  ⟨[bareMeasure 1 [timeAttr 3 4], bareMeasure 2 [], bareMeasure 3 [],
    bareMeasure 4 [], bareMeasure 5 [], bareMeasure 6 [], bareMeasure 7 [],
    bareMeasure 8 [timeAttr 4 4]]⟩

/-- **C4 (amended).** A time-signature-change record is emitted for exactly
those attributes elements carrying a complete (numerator, denominator)
pair that differs from the currently tracked signature, the tracked
signature being initialized from the document's first time element before
the measure scan; hence the document's first time signature itself is
never recorded, and 3/4 changing to 4/4 at measure 8 yields exactly one
record, for measure 8 (but a second, differing signature inside the first
measure is recorded for measure 1, see the counterexample). -/
theorem C4_time_signature_changes :
    (∀ d : Doc, (runParse d).timeSigChanges = tsChangesSpec d) ∧
    (runParse exDocC4).timeSigChanges =
      [{ measureNumber := 8, numerator := 4, denominator := 4 }] := by
  constructor
  · intro d
    have h := projT_foldl_measures d.measures (initState d)
    have hinit : projT (initState d) = (initialTime d, []) := by
      unfold projT initState
      simp
    rw [hinit] at h
    unfold runParse tsChangesSpec attrPairs
    have := congrArg Prod.snd h
    exact this
  · rfl

/-- **C4 counterexample.** A first measure whose attributes carry two
differing time signatures (3/4 then 4/4) makes the script emit a
time-signature-change record *for measure 1*, contrary to the claim that
records are emitted only for measures after the first. -/
theorem C4_counterexample :
    (runParse ⟨[bareMeasure 1 [timeAttr 3 4, timeAttr 4 4]]⟩).timeSigChanges =
      [{ measureNumber := 1, numerator := 4, denominator := 4 }] := by
  rfl

/-! ## Volta bracket closure (C9) -/

lemma foldl_numbers_mono (l : List VoltaEv) (acc : List String) (x : String)
    (h : x ∈ acc) :
    x ∈ l.foldl (fun acc v => if v.number ∈ acc then acc else acc ++ [v.number]) acc := by
  induction l generalizing acc with
  | nil => exact h
  | cons v l ih =>
    rw [List.foldl_cons]
    apply ih
    by_cases hv : v.number ∈ acc
    · rwa [if_pos hv]
    · rw [if_neg hv]; exact List.mem_append_left _ h

lemma mem_voltaNumbers (vs : List VoltaEv) (w : VoltaEv) (h : w ∈ vs) :
    w.number ∈ voltaNumbers vs := by
  unfold voltaNumbers
  suffices H : ∀ (l : List VoltaEv) (acc : List String), w ∈ l →
      w.number ∈ l.foldl
        (fun acc v => if v.number ∈ acc then acc else acc ++ [v.number]) acc by
    exact H vs [] h
  intro l
  induction l with
  | nil => intro acc hw; exact absurd hw (List.not_mem_nil w)
  | cons v l ih =>
    intro acc hw
    rw [List.foldl_cons]
    rcases List.mem_cons.mp hw with rfl | hw
    · apply foldl_numbers_mono
      by_cases hv : w.number ∈ acc
      · rwa [if_pos hv]
      · rw [if_neg hv]
        exact List.mem_append_right _ (List.mem_singleton.mpr rfl)
    · exact ih _ hw

/-- **C9.** Every `start`-typed volta ending of the list yields a printed
bracket: its end measure is the measure of the first `stop`- or
`discontinue`-typed ending of the same number at a measure at or after the
start's, and with no such closing ending it degenerates to the start's own
measure; measures are emitted 0-based.  In particular a lone `start` of
number 1 at measure 10 yields a bracket with both measures 9. -/
theorem C9_volta_closure :
    (∀ (vs : List VoltaEv) (v : VoltaEv), v ∈ vs → v.vtype = some "start" →
      ({ number := v.number, startMeasure := v.measure - 1,
         endMeasure :=
           (match (vs.filter (fun w => w.number = v.number ∧
                (w.vtype = some "stop" ∨ w.vtype = some "discontinue"))).find?
                (fun w => v.measure ≤ w.measure) with
            | some w => w.measure
            | none => v.measure) - 1 } : VoltaBracket) ∈ print_voltas vs) ∧
    print_voltas [{ measure := 10, vtype := some "start", number := "1", beat := 0 }] =
      [{ number := "1", startMeasure := 9, endMeasure := 9 }] := by
  constructor
  · intro vs v hv hs
    unfold print_voltas
    rw [List.mem_flatten]
    refine ⟨bracketsFor vs v.number, List.mem_map_of_mem _ ?_, ?_⟩
    · rw [List.mem_mergeSort]
      exact mem_voltaNumbers vs v hv
    · have hfilter :
          ((vs.filter (fun w => w.number = v.number)).filter
            (fun w => w.vtype = some "stop" ∨ w.vtype = some "discontinue")) =
          vs.filter (fun w => w.number = v.number ∧
            (w.vtype = some "stop" ∨ w.vtype = some "discontinue")) := by
        rw [List.filter_filter]
        apply List.filter_congr
        intro w _
        simp [Bool.and_comm]
      have hmem : v ∈ (vs.filter (fun w => w.number = v.number)).filter
          (fun w => w.vtype = some "start") := by
        rw [List.mem_filter, List.mem_filter]
        refine ⟨⟨hv, by simp⟩, by simp [hs]⟩
      rw [← hfilter]
      exact List.mem_map_of_mem _ hmem
  · have h1 : voltaNumbers
        [{ measure := 10, vtype := some "start", number := "1", beat := 0 }] = ["1"] := rfl
    unfold print_voltas
    rw [h1, List.mergeSort_singleton]
    rfl

/-! ## The tie consolidator characterized (C1) -/

lemma tieScan_of_ge (ns : List NoteEv) (p : String) (j : ℕ) (d : ℚ)
    (sk : List ℕ) (h : ¬ j < ns.length) : tieScan ns p j d sk = (d, sk) := by
  rw [tieScan, dif_neg h]

lemma tieScan_match_start (ns : List NoteEv) (p : String) (j : ℕ) (d : ℚ)
    (sk : List ℕ) (h : j < ns.length)
    (hm : (ns.get ⟨j, h⟩).pitch = p ∧ (ns.get ⟨j, h⟩).tie_stop = true)
    (hts : (ns.get ⟨j, h⟩).tie_start = true) :
    tieScan ns p j d sk =
      tieScan ns p (j + 1) (d + (ns.get ⟨j, h⟩).duration) (j :: sk) := by
  rw [tieScan, dif_pos h]
  simp only [hm.1, hm.2, hts, and_self, if_true]

lemma tieScan_match_end (ns : List NoteEv) (p : String) (j : ℕ) (d : ℚ)
    (sk : List ℕ) (h : j < ns.length)
    (hm : (ns.get ⟨j, h⟩).pitch = p ∧ (ns.get ⟨j, h⟩).tie_stop = true)
    (hts : (ns.get ⟨j, h⟩).tie_start = false) :
    tieScan ns p j d sk = (d + (ns.get ⟨j, h⟩).duration, j :: sk) := by
  rw [tieScan, dif_pos h]
  simp only [hm.1, hm.2, hts, and_self, if_true, Bool.false_eq_true, if_false]

lemma tieScan_nomatch (ns : List NoteEv) (p : String) (j : ℕ) (d : ℚ)
    (sk : List ℕ) (h : j < ns.length)
    (hm : ¬ ((ns.get ⟨j, h⟩).pitch = p ∧ (ns.get ⟨j, h⟩).tie_stop = true)) :
    tieScan ns p j d sk = tieScan ns p (j + 1) d sk := by
  rw [tieScan, dif_pos h]
  rw [if_neg hm]

lemma chainIdx_of_ge (ns : List NoteEv) (p : String) (j : ℕ)
    (h : ¬ j < ns.length) : chainIdx ns p j = [] := by
  rw [chainIdx, dif_neg h]

lemma chainIdx_match_start (ns : List NoteEv) (p : String) (j : ℕ)
    (h : j < ns.length)
    (hm : (ns.get ⟨j, h⟩).pitch = p ∧ (ns.get ⟨j, h⟩).tie_stop = true)
    (hts : (ns.get ⟨j, h⟩).tie_start = true) :
    chainIdx ns p j = j :: chainIdx ns p (j + 1) := by
  rw [chainIdx, dif_pos h]
  simp only [hm.1, hm.2, hts, and_self, if_true]

lemma chainIdx_match_end (ns : List NoteEv) (p : String) (j : ℕ)
    (h : j < ns.length)
    (hm : (ns.get ⟨j, h⟩).pitch = p ∧ (ns.get ⟨j, h⟩).tie_stop = true)
    (hts : (ns.get ⟨j, h⟩).tie_start = false) :
    chainIdx ns p j = [j] := by
  rw [chainIdx, dif_pos h]
  simp only [hm.1, hm.2, hts, and_self, if_true, Bool.false_eq_true, if_false]

lemma chainIdx_nomatch (ns : List NoteEv) (p : String) (j : ℕ)
    (h : j < ns.length)
    (hm : ¬ ((ns.get ⟨j, h⟩).pitch = p ∧ (ns.get ⟨j, h⟩).tie_stop = true)) :
    chainIdx ns p j = chainIdx ns p (j + 1) := by
  rw [chainIdx, dif_pos h]
  rw [if_neg hm]

lemma chainDur_cons (ns : List NoteEv) (p : String) (j j' : ℕ)
    (h : chainIdx ns p j = j :: chainIdx ns p j') (hj : j < ns.length) :
    chainDur ns p j = (ns.get ⟨j, hj⟩).duration + chainDur ns p j' := by
  unfold chainDur
  rw [h, List.map_cons, List.sum_cons, List.get?_eq_get hj]
  rfl

/-- The inner while loop computes: origin duration plus the chain's summed
durations, and pushes the chain's indices (in reverse) onto the skip
list. -/
lemma tieScan_spec (ns : List NoteEv) (p : String) :
    ∀ (k j : ℕ), ns.length - j ≤ k → ∀ (d : ℚ) (sk : List ℕ),
      tieScan ns p j d sk =
        (d + chainDur ns p j, (chainIdx ns p j).reverse ++ sk) := by
  intro k
  induction k with
  | zero =>
    intro j hj d sk
    have h : ¬ j < ns.length := by omega
    rw [tieScan_of_ge ns p j d sk h, chainIdx_of_ge ns p j h]
    simp [chainDur, chainIdx_of_ge ns p j h]
  | succ k ih =>
    intro j hj d sk
    by_cases h : j < ns.length
    · by_cases hm : (ns.get ⟨j, h⟩).pitch = p ∧ (ns.get ⟨j, h⟩).tie_stop = true
      · cases hts : (ns.get ⟨j, h⟩).tie_start with
        | true =>
          rw [tieScan_match_start ns p j d sk h hm hts,
            ih (j + 1) (by omega),
            chainDur_cons ns p j (j + 1) (chainIdx_match_start ns p j h hm hts) h,
            chainIdx_match_start ns p j h hm hts]
          rw [List.reverse_cons, List.append_assoc, List.singleton_append]
          ring_nf
        | false =>
          rw [tieScan_match_end ns p j d sk h hm hts]
          unfold chainDur
          rw [chainIdx_match_end ns p j h hm hts]
          simp [List.get?_eq_get h, List.getElem?_eq_getElem h]
      · rw [tieScan_nomatch ns p j d sk h hm, ih (j + 1) (by omega)]
        unfold chainDur
        rw [chainIdx_nomatch ns p j h hm]
    · have := tieScan_of_ge ns p j d sk h
      rw [this, chainIdx_of_ge ns p j h]
      simp [chainDur, chainIdx_of_ge ns p j h]

lemma consolidateGo_of_ge (ns : List NoteEv) (i : ℕ) (sk : List ℕ)
    (acc : List FinalNote) (h : ¬ i < ns.length) :
    consolidateGo ns i sk acc = acc := by
  rw [consolidateGo, dif_neg h]

lemma consolidateGo_mem (ns : List NoteEv) (i : ℕ) (sk : List ℕ)
    (acc : List FinalNote) (h : i < ns.length) (hm : i ∈ sk) :
    consolidateGo ns i sk acc = consolidateGo ns (i + 1) sk acc := by
  rw [consolidateGo, dif_pos h, if_pos hm]

lemma consolidateGo_step_tie (ns : List NoteEv) (i : ℕ) (sk : List ℕ)
    (acc : List FinalNote) (h : i < ns.length) (hm : i ∉ sk)
    (ht : (ns.get ⟨i, h⟩).tie_start = true) :
    consolidateGo ns i sk acc =
      consolidateGo ns (i + 1)
        (tieScan ns (ns.get ⟨i, h⟩).pitch (i + 1) (ns.get ⟨i, h⟩).duration sk).2
        (acc ++ [{ id := (ns.get ⟨i, h⟩).id, pitch := (ns.get ⟨i, h⟩).pitch,
                   duration := round2 (tieScan ns (ns.get ⟨i, h⟩).pitch (i + 1)
                     (ns.get ⟨i, h⟩).duration sk).1,
                   absoluteBeat := (ns.get ⟨i, h⟩).absoluteBeat,
                   measure := (ns.get ⟨i, h⟩).measure }]) := by
  rw [consolidateGo, dif_pos h, if_neg hm]
  simp only [ht, if_true]

lemma consolidateGo_step_plain (ns : List NoteEv) (i : ℕ) (sk : List ℕ)
    (acc : List FinalNote) (h : i < ns.length) (hm : i ∉ sk)
    (ht : (ns.get ⟨i, h⟩).tie_start = false) :
    consolidateGo ns i sk acc =
      consolidateGo ns (i + 1) sk
        (acc ++ [{ id := (ns.get ⟨i, h⟩).id, pitch := (ns.get ⟨i, h⟩).pitch,
                   duration := round2 (ns.get ⟨i, h⟩).duration,
                   absoluteBeat := (ns.get ⟨i, h⟩).absoluteBeat,
                   measure := (ns.get ⟨i, h⟩).measure }]) := by
  rw [consolidateGo, dif_pos h, if_neg hm]
  simp only [ht, Bool.false_eq_true, if_false]

lemma skipsAt_succ_of_ge (ns : List NoteEv) (i : ℕ) (h : ¬ i < ns.length) :
    skipsAt ns (i + 1) = skipsAt ns i := by
  rw [skipsAt, dif_neg h]

lemma skipsAt_succ_mem (ns : List NoteEv) (i : ℕ) (h : i < ns.length)
    (hm : i ∈ skipsAt ns i) : skipsAt ns (i + 1) = skipsAt ns i := by
  rw [skipsAt, dif_pos h, if_pos hm]

lemma skipsAt_succ_tie (ns : List NoteEv) (i : ℕ) (h : i < ns.length)
    (hm : i ∉ skipsAt ns i) (ht : (ns.get ⟨i, h⟩).tie_start = true) :
    skipsAt ns (i + 1) =
      (tieScan ns (ns.get ⟨i, h⟩).pitch (i + 1) (ns.get ⟨i, h⟩).duration
        (skipsAt ns i)).2 := by
  rw [skipsAt, dif_pos h, if_neg hm]
  simp only [ht, if_true]

lemma skipsAt_succ_plain (ns : List NoteEv) (i : ℕ) (h : i < ns.length)
    (hm : i ∉ skipsAt ns i) (ht : (ns.get ⟨i, h⟩).tie_start = false) :
    skipsAt ns (i + 1) = skipsAt ns i := by
  rw [skipsAt, dif_pos h, if_neg hm]
  simp only [ht, Bool.false_eq_true, if_false]

lemma consolidatedAt_of_mem (ns : List NoteEv) (i : ℕ) (h : i < ns.length)
    (hm : i ∈ skipsAt ns i) : consolidatedAt ns i = none := by
  unfold consolidatedAt
  rw [List.get?_eq_get h]
  simp only [hm, if_pos]

lemma consolidatedAt_of_not_mem (ns : List NoteEv) (i : ℕ) (h : i < ns.length)
    (hm : i ∉ skipsAt ns i) :
    consolidatedAt ns i = some
      { id := (ns.get ⟨i, h⟩).id, pitch := (ns.get ⟨i, h⟩).pitch,
        duration := round2 ((ns.get ⟨i, h⟩).duration +
          (if (ns.get ⟨i, h⟩).tie_start then
            chainDur ns (ns.get ⟨i, h⟩).pitch (i + 1) else 0)),
        absoluteBeat := (ns.get ⟨i, h⟩).absoluteBeat,
        measure := (ns.get ⟨i, h⟩).measure } := by
  unfold consolidatedAt
  rw [List.get?_eq_get h]
  simp only [hm, if_neg, if_false]

/-- The outer consolidation loop, characterized index by index. -/
lemma consolidateGo_spec (ns : List NoteEv) :
    ∀ (k i : ℕ), ns.length - i ≤ k → ∀ (acc : List FinalNote),
      consolidateGo ns i (skipsAt ns i) acc =
        acc ++ (List.range' i (ns.length - i)).filterMap (consolidatedAt ns) := by
  intro k
  induction k with
  | zero =>
    intro i hi acc
    have h : ¬ i < ns.length := by omega
    have h0 : ns.length - i = 0 := by omega
    rw [consolidateGo_of_ge ns i _ acc h, h0]
    simp
  | succ k ih =>
    intro i hi acc
    by_cases h : i < ns.length
    · have hn1 : ns.length - i = (ns.length - (i + 1)) + 1 := by omega
      rw [hn1, List.range'_succ]
      by_cases hm : i ∈ skipsAt ns i
      · rw [consolidateGo_mem ns i _ acc h hm, ← skipsAt_succ_mem ns i h hm,
          ih (i + 1) (by omega), List.filterMap_cons,
          consolidatedAt_of_mem ns i h hm]
      · cases ht : (ns.get ⟨i, h⟩).tie_start with
        | true =>
          have hsk : skipsAt ns (i + 1) =
              (chainIdx ns (ns.get ⟨i, h⟩).pitch (i + 1)).reverse ++
                skipsAt ns i := by
            rw [skipsAt_succ_tie ns i h hm ht,
              tieScan_spec ns (ns.get ⟨i, h⟩).pitch (ns.length - (i + 1))
                (i + 1) (by omega)]
          rw [consolidateGo_step_tie ns i _ acc h hm ht,
            tieScan_spec ns (ns.get ⟨i, h⟩).pitch (ns.length - (i + 1)) (i + 1)
              (by omega)]
          dsimp only
          rw [← hsk, ih (i + 1) (by omega), List.filterMap_cons,
            consolidatedAt_of_not_mem ns i h hm]
          simp only [ht, if_true, List.append_assoc, List.singleton_append]
        | false =>
          rw [consolidateGo_step_plain ns i _ acc h hm ht,
            ← skipsAt_succ_plain ns i h hm ht,
            ih (i + 1) (by omega), List.filterMap_cons,
            consolidatedAt_of_not_mem ns i h hm]
          simp only [ht, Bool.false_eq_true, if_false, add_zero,
            List.append_assoc, List.singleton_append]
    · have h0 : ns.length - i = 0 := by omega
      rw [consolidateGo_of_ge ns i _ acc h, h0]
      simp

/-- `final_notes`, note by note: index `i` contributes nothing when a tie
chain has consumed it, and otherwise one note keeping the origin's id,
pitch, beat and measure, with the chain's durations added. -/
lemma consolidate_spec (ns : List NoteEv) :
    consolidate ns = (List.range ns.length).filterMap (consolidatedAt ns) := by
  unfold consolidate
  have h0 : skipsAt ns 0 = [] := rfl
  rw [← h0, consolidateGo_spec ns ns.length 0 (by omega) [],
    List.range_eq_range']
  simp

/-- The tie chain of C1's example: A4 1.0 tie-start, A4 1.0 tie-start +
tie-stop, A4 0.5 tie-stop. -/
def chainExampleNotes : List NoteEv :=
  [{ id := 1, pitch := "A4", duration := 1, absoluteBeat := 0, measure := 1,
     tie_start := true, tie_stop := false, chord := false },
   { id := 2, pitch := "A4", duration := 1, absoluteBeat := 1, measure := 1,
     tie_start := true, tie_stop := true, chord := false },
   { id := 3, pitch := "A4", duration := 1/2, absoluteBeat := 2, measure := 1,
     tie_start := false, tie_stop := true, chord := false }]

/-- **C1.** The Tie Consolidator, exactly: position by position, a consumed
index contributes nothing, and every unconsumed index contributes one note
keeping the origin's id, pitch, absoluteBeat and measure, whose duration
is the origin's plus (when the origin is a tie-start) the summed durations
of the scanned chain — the nearest same-pitch tie-stop events, the scan
continuing over those that are also tie-starts — rounded to two decimals.
In particular every unconsumed tie-start origin yields such a consolidated
note, and the example 3-note A4 chain (1.0, 1.0, 0.5) consolidates to a
single A4 of duration 2.5 at the first note's beat. -/
theorem C1_tie_consolidation :
    (∀ ns : List NoteEv, consolidate ns =
        (List.range ns.length).filterMap (consolidatedAt ns)) ∧
    (∀ (ns : List NoteEv) (i : ℕ) (n : NoteEv), ns.get? i = some n →
        n.tie_start = true → i ∉ skipsAt ns i →
        ({ id := n.id, pitch := n.pitch,
           duration := round2 (n.duration + chainDur ns n.pitch (i + 1)),
           absoluteBeat := n.absoluteBeat, measure := n.measure } : FinalNote)
          ∈ consolidate ns) ∧
    consolidate chainExampleNotes =
      [{ id := 1, pitch := "A4", duration := 5/2, absoluteBeat := 0,
         measure := 1 }] := by
  refine ⟨consolidate_spec, ?_, ?_⟩
  · intro ns i n hget hts hnm
    obtain ⟨hlt, hg⟩ := List.get?_eq_some.mp hget
    rw [consolidate_spec]
    apply List.mem_filterMap.mpr
    refine ⟨i, List.mem_range.mpr hlt, ?_⟩
    rw [consolidatedAt_of_not_mem ns i hlt hnm, hg]
    simp [hts]
  · simp [consolidate, consolidateGo, tieScan, chainExampleNotes, round2]
    norm_num

/-! ## The emission invariant (C3, C5, C7) -/

/-- The absolute beat an event carries. -/
def beatOf : Ev → ℚ
  | .note n => n.absoluteBeat
  | .rest r => r.absoluteBeat

/-- Whether an event is a chord-flagged note. -/
def isChordNote : Ev → Bool
  | .note n => n.chord
  | .rest _ => false

/-- Every chord-flagged note event carries the beat of the note event
immediately before it in the note stream. -/
def AdjInv (ns : List NoteEv) : Prop :=
  ∀ (l₁ : List NoteEv) (y x : NoteEv) (l₂ : List NoteEv),
    ns = l₁ ++ y :: x :: l₂ → x.chord = true →
    x.absoluteBeat = y.absoluteBeat

/-- The invariant carried through the measure walk: every emitted beat is
on the half-beat grid, bounded by the snapped cursor; the non-chord event
beats are non-decreasing in emission order; lyric beats are on the grid;
chord notes copy their predecessor's beat. -/
structure Inv (s : PState) : Prop where
  fixed : ∀ e ∈ s.events, SnapFixed (beatOf e)
  bounded : ∀ e ∈ s.events, beatOf e ≤ snap_to_half_beat s.currentBeat
  mono : List.Pairwise (· ≤ ·)
    ((s.events.filter (fun e => !isChordNote e)).map beatOf)
  lyr : ∀ l ∈ s.lyrics, SnapFixed l.absoluteBeat
  adj : AdjInv (notesOf s.events)

lemma dur_nonneg (du dv : ℕ) : 0 ≤ (du : ℚ) / (dv : ℚ) := by positivity

lemma notesOf_append_note (evs : List Ev) (n : NoteEv) :
    notesOf (evs ++ [Ev.note n]) = notesOf evs ++ [n] := by
  simp [notesOf]

lemma notesOf_append_rest (evs : List Ev) (r : RestEv) :
    notesOf (evs ++ [Ev.rest r]) = notesOf evs := by
  simp [notesOf]

lemma mem_events_of_mem_notesOf {evs : List Ev} {n : NoteEv}
    (h : n ∈ notesOf evs) : Ev.note n ∈ evs := by
  unfold notesOf at h
  obtain ⟨e, he, hf⟩ := List.mem_filterMap.mp h
  cases e with
  | note m => cases hf; exact he
  | rest r => cases hf

lemma concat_eq_append_cons_cons {α : Type} {ns l₁ l₂ : List α} {e y x : α}
    (h : ns ++ [e] = l₁ ++ y :: x :: l₂) :
    (l₂ = [] ∧ x = e ∧ ns = l₁ ++ [y]) ∨
    (∃ l₂', l₂ = l₂' ++ [e] ∧ ns = l₁ ++ y :: x :: l₂') := by
  rcases List.eq_nil_or_concat l₂ with rfl | ⟨l₂', z, rfl⟩
  · left
    have h' : ns ++ [e] = (l₁ ++ [y]) ++ [x] := by simpa using h
    obtain ⟨h1, h2⟩ := List.append_inj' h' rfl
    have hx : x = e := by
      have := congrArg List.head? h2
      simpa using this.symm
    exact ⟨rfl, hx, h1⟩
  · right
    have h' : ns ++ [e] = (l₁ ++ y :: x :: l₂') ++ [z] := by
      simpa [List.concat_eq_append] using h
    obtain ⟨h1, h2⟩ := List.append_inj' h' rfl
    have hz : z = e := by
      have := congrArg List.head? h2
      simpa using this.symm
    exact ⟨l₂', by rw [List.concat_eq_append, hz], h1⟩

lemma adjInv_nil : AdjInv [] := by
  intro l₁ y x l₂ h
  exact absurd h (by simp)

lemma adjInv_append {ns : List NoteEv} {n : NoteEv} (hAdj : AdjInv ns)
    (hlast : n.chord = true → ∀ y, ns.getLast? = some y →
      n.absoluteBeat = y.absoluteBeat) :
    AdjInv (ns ++ [n]) := by
  intro l₁ y x l₂ heq hx
  rcases concat_eq_append_cons_cons heq with ⟨rfl, rfl, hns⟩ | ⟨l₂', rfl, hns⟩
  · exact hlast hx y (by rw [hns, List.getLast?_concat])
  · exact hAdj l₁ y x l₂' hns hx

lemma filter_map_sub_bound {evs : List Ev} {c : ℚ}
    (hb : ∀ e ∈ evs, beatOf e ≤ c) :
    ∀ a ∈ (evs.filter (fun e => !isChordNote e)).map beatOf, a ≤ c := by
  intro a ha
  obtain ⟨ev, hev, rfl⟩ := List.mem_map.mp ha
  exact hb ev (List.mem_filter.mp hev).1

lemma filter_note_chord (nn : NoteEv) (h : nn.chord = true) :
    List.filter (fun e => !isChordNote e) [Ev.note nn] = [] := by
  simp [isChordNote, h]

lemma filter_note_nonchord (nn : NoteEv) (h : nn.chord = false) :
    List.filter (fun e => !isChordNote e) [Ev.note nn] = [Ev.note nn] := by
  simp [isChordNote, h]

lemma lyric_beats_fixed {ls : List LyricElem} {b : ℚ} {l : LyricEv}
    (h : l ∈ ls.filterMap (fun ly =>
      match ly.text with
      | some t =>
        if t ≠ "" then
          some { text := t, absoluteBeat := snap_to_half_beat b,
                 syllabic := ly.syllabic }
        else none
      | none => none)) : SnapFixed l.absoluteBeat := by
  obtain ⟨ly, _, hf⟩ := List.mem_filterMap.mp h
  rcases hly : ly.text with _ | t
  · rw [hly] at hf; cases hf
  · rw [hly] at hf
    dsimp only at hf
    by_cases ht : t ≠ ""
    · rw [if_pos ht] at hf
      cases hf
      exact snap_snapfixed _
    · rw [if_neg ht] at hf; cases hf

lemma inv_processNoteElem (s : PState) (mn : ℕ) (e : NoteElem) (h : Inv s) :
    Inv (processNoteElem s mn e) := by
  unfold processNoteElem
  by_cases hr : e.isRest
  · rw [if_pos hr]
    cases hd : e.duration with
    | none => exact h
    | some du =>
      dsimp only
      have hd0 : 0 ≤ (du : ℚ) / (s.divisions : ℚ) := dur_nonneg du s.divisions
      have hle : snap_to_half_beat s.currentBeat ≤
          snap_to_half_beat (s.currentBeat + (du : ℚ) / (s.divisions : ℚ)) :=
        snap_mono (by linarith)
      refine ⟨?_, ?_, ?_, ?_, ?_⟩
      · intro ev hev
        rcases List.mem_append.mp hev with hl | hnew
        · exact h.fixed ev hl
        · rw [List.mem_singleton.mp hnew]
          exact snap_snapfixed s.currentBeat
      · intro ev hev
        rcases List.mem_append.mp hev with hl | hnew
        · exact le_trans (h.bounded ev hl) hle
        · rw [List.mem_singleton.mp hnew]
          exact hle
      · rw [List.filter_append, List.map_append]
        apply List.pairwise_append.mpr
        refine ⟨h.mono, by simp [isChordNote], ?_⟩
        intro a ha b hb
        have hb' : b = snap_to_half_beat s.currentBeat := by
          simp [isChordNote, beatOf] at hb
          exact hb
        rw [hb']
        exact filter_map_sub_bound h.bounded a ha
      · exact h.lyr
      · rw [notesOf_append_rest]
        exact h.adj
  · rw [if_neg hr]
    cases hp : e.pitch with
    | none => cases hd : e.duration <;> exact h
    | some p =>
      cases hd : e.duration with
      | none => exact h
      | some du =>
        dsimp only
        have hd0 : 0 ≤ (du : ℚ) / (s.divisions : ℚ) := dur_nonneg du s.divisions
        by_cases hc : e.chord
        · -- chord-flagged note: the cursor is untouched, the beat copied
          simp only [hc, if_true]
          cases hlast : (notesOf s.events).getLast? with
          | some nb =>
            have hmem : Ev.note nb ∈ s.events :=
              mem_events_of_mem_notesOf (List.mem_of_getLast?_eq_some hlast)
            have hnbfix : snap_to_half_beat nb.absoluteBeat = nb.absoluteBeat :=
              h.fixed (Ev.note nb) hmem
            have hnb_le : nb.absoluteBeat ≤ snap_to_half_beat s.currentBeat :=
              h.bounded (Ev.note nb) hmem
            dsimp only
            refine ⟨?_, ?_, ?_, ?_, ?_⟩
            · intro ev hev
              rcases List.mem_append.mp hev with hl | hnew
              · exact h.fixed ev hl
              · rw [List.mem_singleton.mp hnew]
                exact snap_snapfixed _
            · intro ev hev
              rcases List.mem_append.mp hev with hl | hnew
              · exact h.bounded ev hl
              · rw [List.mem_singleton.mp hnew]
                show snap_to_half_beat nb.absoluteBeat ≤ _
                rw [hnbfix]
                exact hnb_le
            · rw [List.filter_append, filter_note_chord _ rfl, List.append_nil]
              exact h.mono
            · intro l hl
              rcases List.mem_append.mp hl with hold | hnew
              · exact h.lyr l hold
              · exact lyric_beats_fixed hnew
            · rw [notesOf_append_note]
              apply adjInv_append h.adj
              intro _ y hy
              rw [hlast] at hy
              cases hy
              show snap_to_half_beat nb.absoluteBeat = nb.absoluteBeat
              exact hnbfix
          | none =>
            dsimp only
            refine ⟨?_, ?_, ?_, ?_, ?_⟩
            · intro ev hev
              rcases List.mem_append.mp hev with hl | hnew
              · exact h.fixed ev hl
              · rw [List.mem_singleton.mp hnew]
                exact snap_snapfixed _
            · intro ev hev
              rcases List.mem_append.mp hev with hl | hnew
              · exact h.bounded ev hl
              · rw [List.mem_singleton.mp hnew]
                show snap_to_half_beat s.currentBeat ≤ _
                exact le_refl _
            · rw [List.filter_append, filter_note_chord _ rfl, List.append_nil]
              exact h.mono
            · intro l hl
              rcases List.mem_append.mp hl with hold | hnew
              · exact h.lyr l hold
              · exact lyric_beats_fixed hnew
            · rw [notesOf_append_note]
              apply adjInv_append h.adj
              intro _ y hy
              rw [hlast] at hy
              cases hy
        · -- plain note: emitted at the snapped cursor, cursor advances
          simp only [hc, if_false, Bool.false_eq_true]
          have hle : snap_to_half_beat s.currentBeat ≤
              snap_to_half_beat (s.currentBeat + (du : ℚ) / (s.divisions : ℚ)) :=
            snap_mono (by linarith)
          have hcf : e.chord = false := by
            simpa using hc
          refine ⟨?_, ?_, ?_, ?_, ?_⟩
          · intro ev hev
            rcases List.mem_append.mp hev with hl | hnew
            · exact h.fixed ev hl
            · rw [List.mem_singleton.mp hnew]
              exact snap_snapfixed _
          · intro ev hev
            rcases List.mem_append.mp hev with hl | hnew
            · exact le_trans (h.bounded ev hl) hle
            · rw [List.mem_singleton.mp hnew]
              exact hle
          · rw [List.filter_append, filter_note_nonchord _ rfl, List.map_append]
            apply List.pairwise_append.mpr
            refine ⟨h.mono, by simp, ?_⟩
            intro a ha b hb
            have hb' : b = snap_to_half_beat s.currentBeat := by
              simp [beatOf] at hb
              exact hb
            rw [hb']
            exact filter_map_sub_bound h.bounded a ha
          · intro l hl
            rcases List.mem_append.mp hl with hold | hnew
            · exact h.lyr l hold
            · exact lyric_beats_fixed hnew
          · rw [notesOf_append_note]
            apply adjInv_append h.adj
            intro hcc
            simp at hcc


lemma inv_of_frame (s s' : PState) (hev : s'.events = s.events)
    (hly : s'.lyrics = s.lyrics) (hcb : s'.currentBeat = s.currentBeat)
    (h : Inv s) : Inv s' := by
  refine ⟨?_, ?_, ?_, ?_, ?_⟩
  · rw [hev]; exact h.fixed
  · rw [hev, hcb]; exact h.bounded
  · rw [hev]; exact h.mono
  · rw [hly]; exact h.lyr
  · rw [hev]; exact h.adj

lemma processAttr_frame (s : PState) (mn : ℕ) (a : AttrElem) :
    (processAttr s mn a).events = s.events ∧
    (processAttr s mn a).lyrics = s.lyrics ∧
    (processAttr s mn a).currentBeat = s.currentBeat := by
  rcases a with ⟨dvo, keyo, timeo⟩
  unfold processAttr
  dsimp only
  rcases timeo with _ | ⟨tb, tbt⟩
  · rcases dvo with _ | dv <;> rcases keyo with _ | (_ | nf) <;>
      dsimp only <;>
      first
        | (split_ifs <;> exact ⟨rfl, rfl, rfl⟩)
        | exact ⟨rfl, rfl, rfl⟩
  · rcases tb with _ | nb <;> rcases tbt with _ | nbt <;>
      rcases dvo with _ | dv <;> rcases keyo with _ | (_ | nf) <;>
      dsimp only <;>
      first
        | (split_ifs <;> exact ⟨rfl, rfl, rfl⟩)
        | exact ⟨rfl, rfl, rfl⟩

lemma processBarline_frame (s : PState) (mn : ℕ) (b : BarlineElem) :
    (processBarline s mn b).events = s.events ∧
    (processBarline s mn b).lyrics = s.lyrics ∧
    (processBarline s mn b).currentBeat = s.currentBeat := by
  unfold processBarline
  rcases b.rep with _ | dir <;> rcases b.ending with _ | en <;>
    exact ⟨rfl, rfl, rfl⟩

lemma inv_foldl_attrs (mn : ℕ) (l : List AttrElem) (s : PState) (h : Inv s) :
    Inv (l.foldl (fun t a => processAttr t mn a) s) := by
  induction l generalizing s with
  | nil => exact h
  | cons a l ih =>
    rw [List.foldl_cons]
    apply ih
    obtain ⟨h1, h2, h3⟩ := processAttr_frame s mn a
    exact inv_of_frame s _ h1 h2 h3 h

lemma inv_foldl_barlines (mn : ℕ) (l : List BarlineElem) (s : PState)
    (h : Inv s) :
    Inv (l.foldl (fun t b => processBarline t mn b) s) := by
  induction l generalizing s with
  | nil => exact h
  | cons b l ih =>
    rw [List.foldl_cons]
    apply ih
    obtain ⟨h1, h2, h3⟩ := processBarline_frame s mn b
    exact inv_of_frame s _ h1 h2 h3 h

lemma inv_foldl_elems (mn : ℕ) (l : List NoteElem) (s : PState) (h : Inv s) :
    Inv (l.foldl (fun t e => processNoteElem t mn e) s) := by
  induction l generalizing s with
  | nil => exact h
  | cons e l ih =>
    rw [List.foldl_cons]
    exact ih _ (inv_processNoteElem s mn e h)

lemma inv_processMeasure (s : PState) (m : Measure) (h : Inv s) :
    Inv (processMeasure s m) := by
  unfold processMeasure
  apply inv_foldl_elems
  apply inv_foldl_barlines
  apply inv_foldl_attrs
  exact inv_of_frame s _ rfl rfl rfl h

lemma inv_initState (d : Doc) : Inv (initState d) := by
  refine ⟨?_, ?_, ?_, ?_, ?_⟩
  · intro e he; exact absurd he (List.not_mem_nil e)
  · intro e he; exact absurd he (List.not_mem_nil e)
  · exact List.Pairwise.nil
  · intro l hl; exact absurd hl (List.not_mem_nil l)
  · exact adjInv_nil

/-- The invariant holds of the final parse state. -/
lemma inv_runParse (d : Doc) : Inv (runParse d) := by
  unfold runParse
  generalize hgen : initState d = s0
  have h0 : Inv s0 := hgen ▸ inv_initState d
  clear hgen
  induction d.measures generalizing s0 with
  | nil => exact h0
  | cons m ms ih =>
    rw [List.foldl_cons]
    exact ih _ (inv_processMeasure s0 m h0)

/-- The beat cursor never moves backwards over a note element. -/
lemma cursor_mono_processNoteElem (s : PState) (mn : ℕ) (e : NoteElem) :
    s.currentBeat ≤ (processNoteElem s mn e).currentBeat := by
  unfold processNoteElem
  by_cases hr : e.isRest
  · rw [if_pos hr]
    cases hd : e.duration with
    | none => exact le_refl _
    | some du =>
      dsimp only
      have := dur_nonneg du s.divisions
      linarith
  · rw [if_neg hr]
    cases hp : e.pitch with
    | none => cases hd : e.duration <;> exact le_refl _
    | some p =>
      cases hd : e.duration with
      | none => exact le_refl _
      | some du =>
        dsimp only
        by_cases hc : e.chord
        · simp only [hc, if_true]
          exact le_refl _
        · simp only [hc, if_false, Bool.false_eq_true]
          have := dur_nonneg du s.divisions
          linarith

lemma adj_chain {ns : List NoteEv} (hadj : AdjInv ns) :
    ∀ (l₂ l₁ : List NoteEv) (m n : NoteEv) (l₃ : List NoteEv),
      ns = l₁ ++ m :: (l₂ ++ n :: l₃) → (∀ x ∈ l₂, x.chord = true) →
      n.chord = true → n.absoluteBeat = m.absoluteBeat := by
  intro l₂
  induction l₂ with
  | nil =>
    intro l₁ m n l₃ heq _ hn
    exact hadj l₁ m n l₃ (by simpa using heq) hn
  | cons z l₂' ih =>
    intro l₁ m n l₃ heq hall hn
    have hz : z.chord = true := hall z (by simp)
    have h1 : z.absoluteBeat = m.absoluteBeat :=
      hadj l₁ m z (l₂' ++ n :: l₃) (by simpa using heq) hz
    have h2 : n.absoluteBeat = z.absoluteBeat := by
      apply ih (l₁ ++ [m]) z n l₃ ?_ (fun x hx => hall x (by simp [hx])) hn
      rw [heq]
      simp
    rw [h2, h1]

/-- **C3.** The beat cursor only moves forward over note elements; the snap
function is monotone; for every document the absolute beats of the emitted
non-chord note and rest events are non-decreasing in emission order; and
every chord-flagged note carries the beat of the first note of its chord
group (the nearest earlier note followed only by chord-flagged notes). -/
theorem C3_beat_monotonicity :
    (∀ (s : PState) (mn : ℕ) (e : NoteElem),
      s.currentBeat ≤ (processNoteElem s mn e).currentBeat) ∧
    (∀ b c : ℚ, b ≤ c → snap_to_half_beat b ≤ snap_to_half_beat c) ∧
    (∀ d : Doc, List.Pairwise (· ≤ ·)
      (((runParse d).events.filter (fun e => !isChordNote e)).map beatOf)) ∧
    (∀ (d : Doc) (l₁ : List NoteEv) (m : NoteEv) (l₂ : List NoteEv)
        (n : NoteEv) (l₃ : List NoteEv),
      notesOf (runParse d).events = l₁ ++ m :: (l₂ ++ n :: l₃) →
      (∀ x ∈ l₂, x.chord = true) → n.chord = true →
      n.absoluteBeat = m.absoluteBeat) :=
  ⟨cursor_mono_processNoteElem,
   fun _ _ h => snap_mono h,
   fun d => (inv_runParse d).mono,
   fun d l₁ m l₂ n l₃ heq hall hn =>
     adj_chain (inv_runParse d).adj l₂ l₁ m n l₃ heq hall hn⟩

/-! ## Which stored beats are snapped (C5) -/

lemma mem_events_of_mem_restsOf {evs : List Ev} {r : RestEv}
    (h : r ∈ restsOf evs) : Ev.rest r ∈ evs := by
  unfold restsOf at h
  obtain ⟨e, he, hf⟩ := List.mem_filterMap.mp h
  cases e with
  | note m => cases hf
  | rest q => cases hf; exact he

lemma consolidate_beat_mem {ns : List NoteEv} {fn : FinalNote}
    (h : fn ∈ consolidate ns) : ∃ n ∈ ns, fn.absoluteBeat = n.absoluteBeat := by
  rw [consolidate_spec] at h
  obtain ⟨i, _, hsome⟩ := List.mem_filterMap.mp h
  unfold consolidatedAt at hsome
  rcases hg : ns.get? i with _ | n
  · rw [hg] at hsome; cases hsome
  · rw [hg] at hsome
    dsimp only at hsome
    by_cases hm : i ∈ skipsAt ns i
    · rw [if_pos hm] at hsome; cases hsome
    · rw [if_neg hm] at hsome
      cases hsome
      exact ⟨n, List.get?_mem hg, rfl⟩

/-- **C5 (amended).** Every absolute beat stored in a note, rest or lyric
event is snapped, hence a multiple of 0.5 — this holds of the raw events,
of the lyrics, and of the final merged item list; repeat markers and volta
records, however, store the *raw* beat cursor, not its snapped value. -/
theorem C5_beats_snapped :
    (∀ (d : Doc) (e : Ev), e ∈ (runParse d).events →
      ∃ k : ℤ, beatOf e = (k : ℚ) / 2) ∧
    (∀ (d : Doc) (l : LyricEv), l ∈ (runParse d).lyrics →
      ∃ k : ℤ, l.absoluteBeat = (k : ℚ) / 2) ∧
    (∀ (d : Doc) (it : Item), it ∈ sorted_items d →
      ∃ k : ℤ, it.absoluteBeat = (k : ℚ) / 2) ∧
    (∀ (s : PState) (mn : ℕ) (b : BarlineElem) (r : RepeatEv),
      r ∈ (processBarline s mn b).repeats →
      r ∈ s.repeats ∨ r.beat = s.currentBeat) ∧
    (∀ (s : PState) (mn : ℕ) (b : BarlineElem) (v : VoltaEv),
      v ∈ (processBarline s mn b).voltas →
      v ∈ s.voltas ∨ v.beat = s.currentBeat) := by
  refine ⟨?_, ?_, ?_, ?_, ?_⟩
  · intro d e he
    exact snapfixed_half _ ((inv_runParse d).fixed e he)
  · intro d l hl
    exact snapfixed_half _ ((inv_runParse d).lyr l hl)
  · intro d it hit
    unfold sorted_items at hit
    rw [List.mem_mergeSort] at hit
    unfold all_items at hit
    rcases List.mem_append.mp hit with hn | hr
    · obtain ⟨fn, hfn, rfl⟩ := List.mem_map.mp hn
      obtain ⟨n, hn', hbeat⟩ := consolidate_beat_mem hfn
      have : SnapFixed n.absoluteBeat :=
        (inv_runParse d).fixed (Ev.note n) (mem_events_of_mem_notesOf hn')
      exact snapfixed_half _ (by unfold itemOfNote; dsimp; rw [hbeat]; exact this)
    · obtain ⟨r, hr', rfl⟩ := List.mem_map.mp hr
      have : SnapFixed r.absoluteBeat :=
        (inv_runParse d).fixed (Ev.rest r) (mem_events_of_mem_restsOf hr')
      exact snapfixed_half _ this
  · intro s mn b r hmem
    unfold processBarline at hmem
    rcases hrep : b.rep with _ | dir <;> rw [hrep] at hmem <;>
      rcases hend : b.ending with _ | en <;> rw [hend] at hmem <;>
      dsimp only at hmem
    · exact Or.inl hmem
    · exact Or.inl hmem
    · rcases List.mem_append.mp hmem with h | h
      · exact Or.inl h
      · rw [List.mem_singleton.mp h]
        exact Or.inr rfl
    · rcases List.mem_append.mp hmem with h | h
      · exact Or.inl h
      · rw [List.mem_singleton.mp h]
        exact Or.inr rfl
  · intro s mn b v hmem
    unfold processBarline at hmem
    rcases hrep : b.rep with _ | dir <;> rw [hrep] at hmem <;>
      rcases hend : b.ending with _ | en <;> rw [hend] at hmem <;>
      dsimp only at hmem
    · exact Or.inl hmem
    · rcases List.mem_append.mp hmem with h | h
      · exact Or.inl h
      · rw [List.mem_singleton.mp h]
        exact Or.inr rfl
    · exact Or.inl hmem
    · rcases List.mem_append.mp hmem with h | h
      · exact Or.inl h
      · rw [List.mem_singleton.mp h]
        exact Or.inr rfl

/-- The C5 counterexample document: divisions 3, a one-unit note in measure
1 (one third of a beat), then a repeat barline in measure 2. -/
def cexDocC5 : Doc :=
  ⟨[{ number := 1,
      attrs := [{ divisions := some 3, key := none, time := none }],
      barlines := [],
      elems := [{ isRest := false, chord := false, ties := [],
                  pitch := some { step := "C", alter := none, octave := 4 },
                  duration := some 1, lyrics := [] }] },
    { number := 2, attrs := [],
      barlines := [{ location := none, rep := some (some "forward"),
                     ending := none }],
      elems := [] }]⟩

/-- **C5 counterexample.** The repeat marker recorded at measure 2 stores
beat 1/3 — the raw cursor after a third-of-a-beat note — which is not
snapped and not a multiple of 0.5, contrary to the claim that every stored
beat, repeat markers included, passes through the snap function. -/
theorem C5_counterexample :
    (runParse cexDocC5).repeats.map RepeatEv.beat = [1/3] ∧
    snap_to_half_beat (1/3) ≠ (1/3 : ℚ) ∧
    ¬ ∃ k : ℤ, (1/3 : ℚ) = (k : ℚ) / 2 := by
  refine ⟨?_, by norm_num [snap_to_half_beat], ?_⟩
  · simp [runParse, cexDocC5, initState, firstDivisions, firstFifths,
      firstTime, initialTime, get_key_accidentals, processMeasure,
      processAttr, processBarline, processNoteElem, resolve_pitch, alookup,
      notesOf, snap_to_half_beat]
  rintro ⟨k, hk⟩
  have h2 : (2 : ℚ) = 3 * (k : ℚ) := by linarith
  have h3 : (2 : ℤ) = 3 * k := by exact_mod_cast h2
  omega

/-! ## Chord notes and the beat cursor (C7) -/

/-- **C7 (amended).** A chord-flagged note never advances the beat cursor;
when emitted it takes (the snap of) the absoluteBeat of the most recently
emitted note — so, the notes' beats being snap-fixed, exactly that beat —
and only when no note at all has been emitted yet (the global note list is
empty, not merely the current measure's) does its absoluteBeat fall back
to the snapped current beat cursor. -/
theorem C7_chord_beat (s : PState) (mn : ℕ) (e : NoteElem) (p : PitchElem)
    (du : ℕ) (h1 : e.isRest = false) (h2 : e.chord = true) :
    (processNoteElem s mn e).currentBeat = s.currentBeat ∧
    (e.pitch = some p → e.duration = some du →
      ∃ nn : NoteEv,
        (processNoteElem s mn e).events = s.events ++ [Ev.note nn] ∧
        nn.chord = true ∧
        (∀ nb, (notesOf s.events).getLast? = some nb →
          nn.absoluteBeat = snap_to_half_beat nb.absoluteBeat ∧
          (snap_to_half_beat nb.absoluteBeat = nb.absoluteBeat →
            nn.absoluteBeat = nb.absoluteBeat)) ∧
        ((notesOf s.events).getLast? = none →
          nn.absoluteBeat = snap_to_half_beat s.currentBeat)) := by
  constructor
  · unfold processNoteElem
    rw [if_neg (by simp [h1])]
    cases hp : e.pitch with
    | none => cases hd : e.duration <;> rfl
    | some q =>
      cases hd : e.duration with
      | none => rfl
      | some dv =>
        dsimp only
        simp only [h2, if_true]
  · intro hp hd
    unfold processNoteElem
    rw [if_neg (by simp [h1]), hp, hd]
    dsimp only
    simp only [h2, if_true]
    refine ⟨_, rfl, rfl, ?_, ?_⟩
    · intro nb hnb
      rw [hnb]
      exact ⟨rfl, fun hfix => hfix⟩
    · intro hnone
      rw [hnone]

/-- A chord-flagged pitched note element. -/
def chordElemEx : NoteElem :=
  { isRest := false, chord := true, ties := [],
    pitch := some { step := "E", alter := none, octave := 4 },
    duration := some 2, lyrics := [] }

/-- The state before any measure of the empty document. -/
def emptyState : PState := initState ⟨[]⟩

/-- Witness for C7 at a concrete input: a chord note processed in the
initial state (no note emitted yet). -/
theorem C7_chord_beat_witness :
    (processNoteElem emptyState 1 chordElemEx).currentBeat =
      emptyState.currentBeat ∧
    (chordElemEx.pitch = some { step := "E", alter := none, octave := 4 } →
      chordElemEx.duration = some 2 →
      ∃ nn : NoteEv,
        (processNoteElem emptyState 1 chordElemEx).events =
          emptyState.events ++ [Ev.note nn] ∧
        nn.chord = true ∧
        (∀ nb, (notesOf emptyState.events).getLast? = some nb →
          nn.absoluteBeat = snap_to_half_beat nb.absoluteBeat ∧
          (snap_to_half_beat nb.absoluteBeat = nb.absoluteBeat →
            nn.absoluteBeat = nb.absoluteBeat)) ∧
        ((notesOf emptyState.events).getLast? = none →
          nn.absoluteBeat = snap_to_half_beat emptyState.currentBeat)) :=
  C7_chord_beat emptyState 1 chordElemEx
    { step := "E", alter := none, octave := 4 } 2 rfl rfl

/-- The C7 counterexample document: measure 1 holds a one-beat C4; measure
2 holds a one-beat rest and then a chord-flagged E4. -/
def cexDocC7 : Doc :=
  ⟨[{ number := 1, attrs := [], barlines := [],
      elems := [{ isRest := false, chord := false, ties := [],
                  pitch := some { step := "C", alter := none, octave := 4 },
                  duration := some 2, lyrics := [] }] },
    { number := 2, attrs := [], barlines := [],
      elems := [{ isRest := true, chord := false, ties := [], pitch := none,
                  duration := some 2, lyrics := [] },
                { isRest := false, chord := true, ties := [],
                  pitch := some { step := "E", alter := none, octave := 4 },
                  duration := some 2, lyrics := [] }] }]⟩

/-- **C7 counterexample.** In measure 2 the chord-flagged E4 is preceded in
its own measure only by a rest, yet its absoluteBeat is 0 — the beat of
measure 1's note, the most recently emitted note — and not the beat
cursor 2, contrary to the claim that it falls back to the cursor whenever
no prior note was emitted *in the current measure*. -/
theorem C7_counterexample :
    (notesOf (runParse cexDocC7).events).map
      (fun n => (n.absoluteBeat, n.chord)) = [(0, false), (0, true)] ∧
    (runParse cexDocC7).currentBeat = 2 ∧ (0 : ℚ) ≠ 2 := by
  refine ⟨?_, ?_, by norm_num⟩
  · simp [runParse, cexDocC7, initState, firstDivisions, firstFifths,
      firstTime, initialTime, get_key_accidentals, processMeasure,
      processAttr, processBarline, processNoteElem, resolve_pitch, alookup,
      notesOf, snap_to_half_beat]
    norm_num
  · simp [runParse, cexDocC7, initState, firstDivisions, firstFifths,
      firstTime, initialTime, get_key_accidentals, processMeasure,
      processAttr, processBarline, processNoteElem, resolve_pitch, alookup,
      notesOf, snap_to_half_beat]
    norm_num

/-! ## The final merge and sort (C8) -/

lemma keyLE_trans : ∀ a b c : Item, keyLE a b → keyLE b c → keyLE a c := by
  intro a b c
  simp only [keyLE, decide_eq_true_eq]
  rintro (h | ⟨he, h2⟩) (h' | ⟨he', h2'⟩)
  · exact Or.inl (lt_trans h h')
  · exact Or.inl (by rw [← he']; exact h)
  · exact Or.inl (by rw [he]; exact h')
  · exact Or.inr ⟨he.trans he', le_trans h2 h2'⟩

lemma keyLE_total : ∀ a b : Item, keyLE a b || keyLE b a := by
  intro a b
  simp only [keyLE, Bool.or_eq_true, decide_eq_true_eq]
  rcases lt_trichotomy (sortKey a).1 (sortKey b).1 with h | h | h
  · exact Or.inl (Or.inl h)
  · rcases le_total (sortKey a).2 (sortKey b).2 with h2 | h2
    · exact Or.inl (Or.inr ⟨h, h2⟩)
    · exact Or.inr (Or.inr ⟨h.symm, h2⟩)
  · exact Or.inr (Or.inl h)

lemma keyLE_refl_of_eq {a b : Item} (h : sortKey a = sortKey b) :
    keyLE a b := by
  simp only [keyLE, decide_eq_true_eq]
  exact Or.inr ⟨by rw [h], by rw [h]⟩

/-- **C8.** The final merged list is sorted by absoluteBeat in
non-decreasing order; among events sharing a beat a rest never precedes a
note; and the sort is stable: the events of any one sort key appear in the
sorted list exactly as they appear, in emission order, in the unsorted
`final_notes ++ rests` concatenation. -/
theorem C8_merge_sorted (d : Doc) (k : ℚ × ℕ) :
    List.Pairwise (fun a b : Item => a.absoluteBeat ≤ b.absoluteBeat)
      (sorted_items d) ∧
    List.Pairwise (fun a b : Item =>
      a.absoluteBeat = b.absoluteBeat → a.pitch = "REST" → b.pitch = "REST")
      (sorted_items d) ∧
    (sorted_items d).filter (fun x => decide (sortKey x = k)) =
      (all_items d).filter (fun x => decide (sortKey x = k)) := by
  have hp : (sorted_items d).Pairwise (fun a b => keyLE a b) :=
    List.sorted_mergeSort keyLE_trans keyLE_total (all_items d)
  refine ⟨?_, ?_, ?_⟩
  · apply hp.imp
    intro a b hab
    simp only [keyLE, decide_eq_true_eq] at hab
    rcases hab with h | ⟨h, -⟩
    · exact le_of_lt h
    · exact le_of_eq h
  · apply hp.imp
    intro a b hab heq ha
    simp only [keyLE, decide_eq_true_eq] at hab
    rcases hab with h | ⟨-, h2⟩
    · exact absurd heq (ne_of_lt h)
    · by_contra hb
      have hfa : (sortKey a).2 = 1 := by simp [sortKey, ha]
      have hfb : (sortKey b).2 = 0 := by simp [sortKey, hb]
      rw [hfa, hfb] at h2
      omega
  · have hpair : ((all_items d).filter
        (fun x => decide (sortKey x = k))).Pairwise (fun a b => keyLE a b) := by
      apply List.pairwise_of_forall_mem_list
      intro a ha b hb
      have ha' := of_decide_eq_true (List.mem_filter.mp ha).2
      have hb' := of_decide_eq_true (List.mem_filter.mp hb).2
      exact keyLE_refl_of_eq (ha'.trans hb'.symm)
    have h1 : List.Sublist
        ((all_items d).filter (fun x => decide (sortKey x = k)))
        (sorted_items d) :=
      List.sublist_mergeSort keyLE_trans keyLE_total hpair
        (List.filter_sublist _)
    have h2 : List.Perm
        ((sorted_items d).filter (fun x => decide (sortKey x = k)))
        ((all_items d).filter (fun x => decide (sortKey x = k))) :=
      (List.mergeSort_perm (all_items d) keyLE).filter _
    have h4 : ((all_items d).filter (fun x => decide (sortKey x = k))).filter
        (fun x => decide (sortKey x = k)) =
        (all_items d).filter (fun x => decide (sortKey x = k)) := by
      rw [List.filter_filter]
      apply List.filter_congr
      intro x _
      simp
    have h3 : List.Sublist
        ((all_items d).filter (fun x => decide (sortKey x = k)))
        ((sorted_items d).filter (fun x => decide (sortKey x = k))) := by
      have := h1.filter (fun x => decide (sortKey x = k))
      rwa [h4] at this
    exact (h3.eq_of_length h2.length_eq.symm).symm
end RochelMusic
